import Mathlib

/-!
Verification of the real-time transcript segmentation and incremental-update
pipeline of this repository.  Strings are modelled as lists of characters
(the JS string operations used by the source are all code-unit-wise on the
inputs in scope).  The embedded functions follow the source component
(client/src/components/transcription-display.tsx and its duplicated copies,
plus the speech-recognition hook in src/unnamed/part_002).
-/

/-- The character class recognised by JS String.prototype.trim and by the
regex class of a backslash-s: spaces, tabs, line terminators and the
Unicode space characters. -/
def isJsWS (c : Char) : Bool :=
  c = ' ' || c = '\t' || c = '\n' || c = '\r' || c.val = 11 || c.val = 12 ||
  c.val = 160 || c.val = 0x1680 || (0x2000 ≤ c.val && c.val ≤ 0x200a) ||
  c.val = 0x2028 || c.val = 0x2029 || c.val = 0x202f || c.val = 0x205f ||
  c.val = 0x3000 || c.val = 0xfeff

/-- Strong terminal punctuation: the class [.!?] used by the sentence split. -/
def isStrongPunct (c : Char) : Bool :=
  c = '.' || c = '!' || c = '?'

/-- The class [.,!?;\s] stripped from the start of a new final delta. -/
def isLeadNoise (c : Char) : Bool :=
  c = '.' || c = ',' || c = '!' || c = '?' || c = ';' || isJsWS c

/-- Remove trailing JS whitespace. -/
def dropTrailWS (s : List Char) : List Char :=
  (s.reverse.dropWhile isJsWS).reverse

/-- JS String.prototype.trim: remove leading and trailing whitespace. -/
def jsTrim (s : List Char) : List Char :=
  dropTrailWS (s.dropWhile isJsWS)

/-- Source line: newText.replace(leading-noise-run regex, empty).trim().
Every character the regex removes includes all whitespace, so the
composition is: drop the leading noise run, then trim. -/
def stripLeadNoise (s : List Char) : List Char :=
  jsTrim (s.dropWhile isLeadNoise)

/-- JS String.prototype.split on a regex matching one-or-more characters
satisfying p (such as the [.!?]+ of the sentence splitter and the
backslash-s-plus of the word counter): maximal delimiter runs separate the
fragments, and a leading or trailing run contributes an empty fragment. -/
def splitRunsOn (p : Char → Bool) : List Char → List (List Char)
  | [] => [[]]
  | c :: cs =>
    let r := splitRunsOn p cs
    if p c then
      match cs with
      | [] => [[], []]
      | d :: _ => if p d then r else [] :: r
    else
      match r with
      | [] => [[c]]
      | h :: t => (c :: h) :: t

/-- Source: newText.split([.!?]+ regex).map(trim).filter(nonempty). -/
def sentencesOf (delta : List Char) : List (List Char) :=
  ((splitRunsOn isStrongPunct delta).map jsTrim).filter (fun s => !s.isEmpty)

/-- Source lines of processFinalTranscript: start from the candidate final
text; when a nonempty previously-processed prefix is a prefix of it, the new
text is the remaining suffix with surrounding whitespace trimmed. -/
def reconcileDelta (finalText lastProcessed : List Char) : List Char :=
  if !lastProcessed.isEmpty && lastProcessed.isPrefixOf finalText then
    jsTrim (finalText.drop lastProcessed.length)
  else finalText

-- ## Basic list lemmas used throughout

theorem dropWhile_idem (p : Char → Bool) :
    ∀ l : List Char, (l.dropWhile p).dropWhile p = l.dropWhile p := by
  intro l
  induction l with
  | nil => rfl
  | cons c cs ih =>
    by_cases h : p c
    · simp [List.dropWhile_cons, h, ih]
    · simp [List.dropWhile_cons, h]

theorem dropWhile_head_not (p : Char → Bool) :
    ∀ l : List Char, l.dropWhile p = [] ∨
      ∃ c t, l.dropWhile p = c :: t ∧ p c = false := by
  intro l
  induction l with
  | nil => exact Or.inl rfl
  | cons c cs ih =>
    by_cases h : p c
    · simpa [List.dropWhile_cons, h] using ih
    · exact Or.inr ⟨c, cs, by simp [List.dropWhile_cons, h], by simp [h]⟩

theorem takeWhile_all (p : Char → Bool) (l : List Char) :
    ∀ c ∈ l.takeWhile p, p c = true := by
  intro c hc
  exact List.mem_takeWhile_imp hc

theorem dropTrailWS_decomp (l : List Char) :
    ∃ t, l = dropTrailWS l ++ t ∧ ∀ c ∈ t, isJsWS c = true := by
  refine ⟨(l.reverse.takeWhile isJsWS).reverse, ?_, ?_⟩
  · unfold dropTrailWS
    conv_lhs => rw [← l.reverse_reverse]
    rw [← List.reverse_append, List.takeWhile_append_dropWhile]
  · intro c hc
    rw [List.mem_reverse] at hc
    exact List.mem_takeWhile_imp hc

theorem dropTrailWS_idem (l : List Char) :
    dropTrailWS (dropTrailWS l) = dropTrailWS l := by
  unfold dropTrailWS
  rw [List.reverse_reverse, dropWhile_idem]

theorem dropWhile_eq_self_of_head (p : Char → Bool) (l : List Char)
    (h : l = [] ∨ ∃ c t, l = c :: t ∧ p c = false) : l.dropWhile p = l := by
  rcases h with h | ⟨c, t, hl, hc⟩
  · simp [h]
  · simp [hl, List.dropWhile_cons, hc]

theorem dropTrailWS_head (l : List Char) :
    dropTrailWS l = [] ∨
      ∃ c t t2, l = c :: t ∧ dropTrailWS l = c :: t2 := by
  obtain ⟨t, hdec, _⟩ := dropTrailWS_decomp l
  cases hd : dropTrailWS l with
  | nil => exact Or.inl rfl
  | cons c t2 =>
    refine Or.inr ⟨c, t2 ++ t, t2, ?_, rfl⟩
    rw [hdec, hd]
    simp

theorem jsTrim_idem (s : List Char) : jsTrim (jsTrim s) = jsTrim s := by
  unfold jsTrim
  have h1 : (dropTrailWS ((s.dropWhile isJsWS))).dropWhile isJsWS =
      dropTrailWS (s.dropWhile isJsWS) := by
    apply dropWhile_eq_self_of_head
    rcases dropTrailWS_head (s.dropWhile isJsWS) with h | ⟨c, t, t2, hl, hd⟩
    · exact Or.inl h
    · refine Or.inr ⟨c, t2, hd, ?_⟩
      rcases dropWhile_head_not isJsWS s with h0 | ⟨c0, t0, h0, hc0⟩
      · rw [h0] at hl; cases hl
      · rw [h0] at hl
        obtain ⟨rfl, rfl⟩ := List.cons.inj hl
        exact hc0
  rw [h1, dropTrailWS_idem]

theorem jsTrim_sub (s : List Char) : ∀ c ∈ jsTrim s, c ∈ s := by
  intro c hc
  unfold jsTrim dropTrailWS at hc
  rw [List.mem_reverse] at hc
  have h1 := (List.dropWhile_sublist (l := (s.dropWhile isJsWS).reverse)
    (p := isJsWS)).mem hc
  rw [List.mem_reverse] at h1
  exact (List.dropWhile_sublist (l := s) (p := isJsWS)).mem h1

theorem jsTrim_decomp (s : List Char) :
    ∃ lead trail, s = lead ++ jsTrim s ++ trail ∧
      (∀ c ∈ lead, isJsWS c = true) ∧ ∀ c ∈ trail, isJsWS c = true := by
  obtain ⟨t, hdec, ht⟩ := dropTrailWS_decomp (s.dropWhile isJsWS)
  refine ⟨s.takeWhile isJsWS, t, ?_, takeWhile_all isJsWS s, ht⟩
  unfold jsTrim
  rw [List.append_assoc, ← hdec, List.takeWhile_append_dropWhile]

theorem jsTrim_all_ws (s : List Char) (h : ∀ c ∈ s, isJsWS c = true) :
    jsTrim s = [] := by
  unfold jsTrim dropTrailWS
  have h1 : s.dropWhile isJsWS = [] := by
    rw [List.dropWhile_eq_nil_iff]
    intro x hx
    simpa using h x hx
  simp [h1]

-- ## C1: the reconciler delta

/-- C1 counterexample: the claim says the new delta is exactly the suffix of
the candidate after the stored prefix; the source trims that suffix, so for
candidate "ab c" and stored prefix "ab" the delta is "c", not " c". -/
theorem reconcileDelta_not_exact_suffix :
    reconcileDelta ("ab c".data) ("ab".data) ≠
      (("ab c".data)).drop (("ab".data)).length := by decide

theorem isPrefixOf_append_self (l r : List Char) :
    l.isPrefixOf (l ++ r) = true := by
  induction l with
  | nil => simp [List.isPrefixOf]
  | cons c cs ih => simp [List.isPrefixOf, ih]

/-- C1 (amended): for every pair of strings, if the candidate final text
starts with the nonempty stored prefix then the new delta is the remaining
suffix trimmed of surrounding whitespace; if the candidate does not start
with the stored prefix (ASR restart), or the stored prefix is empty, the
whole candidate is the delta.  The reconciler is a total function, so no
error is raised in either case. -/
theorem reconcileDelta_spec :
    (∀ lastProcessed rest : List Char, lastProcessed ≠ [] →
      reconcileDelta (lastProcessed ++ rest) lastProcessed = jsTrim rest) ∧
    (∀ finalText lastProcessed : List Char,
      lastProcessed.isPrefixOf finalText = false →
      reconcileDelta finalText lastProcessed = finalText) ∧
    (∀ finalText : List Char, reconcileDelta finalText [] = finalText) := by
  refine ⟨?_, ?_, ?_⟩
  · intro lastProcessed rest h
    unfold reconcileDelta
    rw [isPrefixOf_append_self, List.drop_left]
    simp [h]
  · intro finalText lastProcessed h
    unfold reconcileDelta
    simp [h]
  · intro finalText
    rfl

/-- Witness for C1: a concrete extension of a nonempty stored prefix. -/
theorem reconcileDelta_spec_wit :
    reconcileDelta (("a".data) ++ (" b".data)) ("a".data) = jsTrim (" b".data) :=
  reconcileDelta_spec.1 ("a".data) (" b".data) (by decide)

-- ## C3: the sentence splitter

theorem splitRunsOn_no_delim (p : Char → Bool) :
    ∀ l : List Char, (∀ c ∈ l, p c = false) → splitRunsOn p l = [l] := by
  intro l
  induction l with
  | nil => intro _; rfl
  | cons c cs ih =>
    intro h
    have hc : p c = false := h c (by simp)
    have hcs : splitRunsOn p cs = [cs] := ih (fun x hx => h x (by simp [hx]))
    simp [splitRunsOn, hc, hcs]

theorem splitRunsOn_cons (p : Char → Bool) (a : Char) (cs : List Char) :
    splitRunsOn p (a :: cs) =
      if p a then
        (match cs with
         | [] => [[], []]
         | d :: _ => if p d then splitRunsOn p cs else [] :: splitRunsOn p cs)
      else
        (match splitRunsOn p cs with
         | [] => [[a]]
         | h :: t => (a :: h) :: t) := rfl

theorem splitRunsOn_parts (p : Char → Bool) :
    ∀ l : List Char, ∀ u ∈ splitRunsOn p l, ∀ c ∈ u, p c = false := by
  intro l
  induction l with
  | nil =>
    intro u hu c hc
    simp [splitRunsOn] at hu
    subst hu
    simp at hc
  | cons a cs ih =>
    intro u hu c hc
    rw [splitRunsOn_cons] at hu
    cases ha : p a with
    | true =>
      rw [if_pos ha] at hu
      cases cs with
      | nil =>
        simp at hu
        subst hu
        simp at hc
      | cons d ds =>
        cases hd : p d with
        | true =>
          simp only [hd, if_true] at hu
          exact ih u hu c hc
        | false =>
          simp only [hd, Bool.false_eq_true, if_false] at hu
          rcases (List.mem_cons).1 hu with rfl | hu
          · simp at hc
          · exact ih u hu c hc
    | false =>
      rw [if_neg (by simp [ha])] at hu
      cases hr : splitRunsOn p cs with
      | nil =>
        rw [hr] at hu
        simp at hu
        subst hu
        rcases (List.mem_cons).1 hc with rfl | hch
        · exact ha
        · simp at hch
      | cons h t =>
        rw [hr] at hu
        rcases (List.mem_cons).1 hu with rfl | hu
        · rcases (List.mem_cons).1 hc with rfl | hch
          · exact ha
          · exact ih h (by rw [hr]; simp) c hch
        · exact ih u (by rw [hr]; simp [hu]) c hc

theorem ws_not_punct (c : Char) (h : isJsWS c = true) : isStrongPunct c = false := by
  cases hx : isStrongPunct c
  · rfl
  · exfalso
    simp [isStrongPunct] at hx
    rcases hx with (rfl | rfl) | rfl <;> exact absurd h (by decide)

/-- C3 (confirmed): the sentence splitter splits the delta on runs of the
strong punctuation characters, trims each fragment of surrounding
whitespace and drops empty fragments; a delta free of those punctuation
characters whose trim is nonempty yields exactly one unit, the trimmed
delta; a whitespace-only (in particular empty) delta yields zero units; and
every emitted unit is nonempty, fully trimmed, and free of the punctuation
characters. -/
theorem sentencesOf_spec :
    (∀ delta : List Char, (∀ c ∈ delta, isStrongPunct c = false) →
        jsTrim delta ≠ [] → sentencesOf delta = [jsTrim delta]) ∧
    (∀ delta : List Char, (∀ c ∈ delta, isJsWS c = true) →
        sentencesOf delta = []) ∧
    (∀ delta : List Char, ∀ u ∈ sentencesOf delta,
        u ≠ [] ∧ jsTrim u = u ∧ ∀ c ∈ u, isStrongPunct c = false) := by
  refine ⟨?_, ?_, ?_⟩
  · intro delta h h2
    unfold sentencesOf
    rw [splitRunsOn_no_delim isStrongPunct delta h]
    have h3 : (jsTrim delta).isEmpty = false := by
      cases he : (jsTrim delta).isEmpty
      · rfl
      · exact absurd (List.isEmpty_iff.1 he) h2
    simp [List.filter_cons, h3]
  · intro delta h
    unfold sentencesOf
    rw [splitRunsOn_no_delim isStrongPunct delta (fun c hc => ws_not_punct c (h c hc))]
    simp [List.filter_cons, jsTrim_all_ws delta h]
  · intro delta u hu
    unfold sentencesOf at hu
    rw [List.mem_filter] at hu
    obtain ⟨hm, hne⟩ := hu
    rw [List.mem_map] at hm
    obtain ⟨v, hv, rfl⟩ := hm
    refine ⟨by simpa [List.isEmpty_iff] using hne, jsTrim_idem v, ?_⟩
    intro c hc
    exact splitRunsOn_parts isStrongPunct delta v hv c (jsTrim_sub v c hc)

/-- Witness for C3: a punctuation-free delta yields its trim as single unit. -/
theorem sentencesOf_spec_wit :
    sentencesOf (" hi ".data) = [jsTrim (" hi ".data)] :=
  sentencesOf_spec.1 (" hi ".data) (by decide) (by decide)

-- ## C2: concatenation of deltas along an appending sequence

/-- The non-whitespace characters of a string, in order. -/
def nwsFilter (s : List Char) : List Char :=
  s.filter (fun c => !isJsWS c)

theorem nwsFilter_append (a b : List Char) :
    nwsFilter (a ++ b) = nwsFilter a ++ nwsFilter b :=
  List.filter_append a b

theorem nwsFilter_all_ws (l : List Char) (h : ∀ c ∈ l, isJsWS c = true) :
    nwsFilter l = [] := by
  unfold nwsFilter
  rw [List.filter_eq_nil_iff]
  intro c hc
  simp [h c hc]

theorem nwsFilter_jsTrim (s : List Char) : nwsFilter (jsTrim s) = nwsFilter s := by
  obtain ⟨lead, trail, hdec, hl, ht⟩ := jsTrim_decomp s
  conv_rhs => rw [hdec]
  rw [nwsFilter_append, nwsFilter_append, nwsFilter_all_ws lead hl,
    nwsFilter_all_ws trail ht]
  simp

/-- An appending sequence of candidate final texts: each one starts with
the previous one. -/
def extendChainB : List Char → List (List Char) → Bool
  | _, [] => true
  | lastT, f :: fs => lastT.isPrefixOf f && extendChainB f fs

/-- The sequence of newFinalDelta values the transcript effect emits along
a sequence of candidate final texts: a candidate equal to the stored text
is skipped (the effect only processes on change); otherwise the reconciler
delta is emitted and the stored text becomes the candidate. -/
def deltasOf : List Char → List (List Char) → List (List Char)
  | _, [] => []
  | lastT, f :: fs =>
    if f == lastT then deltasOf lastT fs
    else reconcileDelta f lastT :: deltasOf f fs

theorem isPrefixOf_exists_append :
    ∀ (l f : List Char), l.isPrefixOf f = true → ∃ r, f = l ++ r := by
  intro l
  induction l with
  | nil => intro f _; exact ⟨f, rfl⟩
  | cons c cs ih =>
    intro f h
    cases f with
    | nil => simp [List.isPrefixOf] at h
    | cons d ds =>
      simp only [List.isPrefixOf, Bool.and_eq_true, beq_iff_eq] at h
      obtain ⟨rfl, h2⟩ := h
      obtain ⟨r, rfl⟩ := ih ds h2
      exact ⟨r, rfl⟩

theorem extendChainB_getLastD :
    ∀ (fs : List (List Char)) (f : List Char), extendChainB f fs = true →
      ∃ t, List.getLastD fs f = f ++ t := by
  intro fs
  induction fs with
  | nil => intro f _; exact ⟨[], by simp⟩
  | cons g gs ih =>
    intro f h
    rw [extendChainB, Bool.and_eq_true] at h
    obtain ⟨h1, h2⟩ := h
    obtain ⟨r, rfl⟩ := isPrefixOf_exists_append f g h1
    obtain ⟨t, ht⟩ := ih (f ++ r) h2
    refine ⟨r ++ t, ?_⟩
    rw [List.getLastD_cons, ht, List.append_assoc]

/-- C2 counterexample: along the appending sequence from stored text "a" to
candidate "a b", the single emitted delta is "b" (the reconciler trims the
suffix " b"), so the concatenation of the deltas is not the final candidate
minus the initial stored prefix: the boundary space is dropped. -/
theorem deltasOf_concat_counterexample :
    extendChainB ("a".data) ["a b".data] = true ∧
    (deltasOf ("a".data) ["a b".data]).flatten ≠
      ("a b".data).drop (("a".data)).length := by decide

/-- C2 (amended): for every appending sequence of candidate final texts,
the concatenation of all emitted newFinalDelta values agrees with the final
candidate minus the initial stored prefix up to whitespace dropped at chunk
boundaries by trimming: the non-whitespace characters are exactly equal,
none duplicated and none dropped. -/
theorem deltasOf_concat_spec :
    ∀ (fs : List (List Char)) (lastT : List Char), extendChainB lastT fs = true →
      nwsFilter (deltasOf lastT fs).flatten =
        nwsFilter ((List.getLastD fs lastT).drop lastT.length) := by
  intro fs
  induction fs with
  | nil =>
    intro lastT _
    simp [deltasOf, List.drop_length, nwsFilter]
  | cons f fs ih =>
    intro lastT h
    rw [extendChainB, Bool.and_eq_true] at h
    obtain ⟨h1, h2⟩ := h
    obtain ⟨r, rfl⟩ := isPrefixOf_exists_append lastT f h1
    rw [List.getLastD_cons]
    cases hb : (lastT ++ r == lastT) with
    | true =>
      have hr : r = [] := by
        have h0 : lastT ++ r = lastT ++ [] := by simpa using eq_of_beq hb
        exact List.append_cancel_left h0
      subst hr
      simp only [List.append_nil] at h2 ⊢
      simp only [deltasOf, beq_self_eq_true, if_true]
      exact ih lastT h2
    | false =>
      simp only [deltasOf, hb, Bool.false_eq_true, if_false]
      have hnws : nwsFilter (reconcileDelta (lastT ++ r) lastT) = nwsFilter r := by
        by_cases hl0 : lastT = []
        · subst hl0
          simp [reconcileDelta]
        · have hne : lastT.isEmpty = false := by
            cases he : lastT.isEmpty
            · rfl
            · exact absurd (List.isEmpty_iff.1 he) hl0
          unfold reconcileDelta
          rw [isPrefixOf_append_self, List.drop_left]
          simp [hne, nwsFilter_jsTrim]
      obtain ⟨t, ht⟩ := extendChainB_getLastD fs (lastT ++ r) h2
      have hih := ih (lastT ++ r) h2
      rw [ht, List.drop_left] at hih
      rw [List.flatten_cons, nwsFilter_append, hnws, hih, ht, List.append_assoc,
        List.drop_left, nwsFilter_append]

/-- Witness for C2: the amended statement at the concrete appending
sequence of the counterexample. -/
theorem deltasOf_concat_spec_wit :
    nwsFilter (deltasOf ("a".data) ["a b".data]).flatten =
      nwsFilter ((List.getLastD ["a b".data] ("a".data)).drop (("a".data)).length) :=
  deltasOf_concat_spec ["a b".data] ("a".data) (by decide)

-- ## The segment store and the transcript effect

/-- A displayed sentence block (one segment), as in the source component:
original text set at creation, plus enrichment and visibility fields. -/
structure SentenceBlock where
  id : Nat
  originalText : List Char
  translatedText : Option (List Char)
  isTranslating : Bool
  showTranslation : Bool
  aiResponse : Option (List Char)
  isAnalyzing : Bool
deriving DecidableEq

/-- The component state touched by the transcript pipeline: the segment
list, the last processed final text, the interim text, and the currently
selected sentence of the analysis flow.  Segment ids (random strings in the
source) are modelled by a fresh-id counter. -/
structure DisplayState where
  blocks : List SentenceBlock
  lastProcessedTranscript : List Char
  interimText : List Char
  selectedSentence : List Char
  nextId : Nat
deriving DecidableEq

def initState : DisplayState :=
  { blocks := [], lastProcessedTranscript := [], interimText := [],
    selectedSentence := [], nextId := 0 }

def mkBlock (i : Nat) (text : List Char) : SentenceBlock :=
  { id := i, originalText := text, translatedText := none,
    isTranslating := false, showTranslation := false,
    aiResponse := none, isAnalyzing := false }

def mkBlocks (base : Nat) (texts : List (List Char)) : List SentenceBlock :=
  texts.enum.map (fun p => mkBlock (base + p.1) p.2)

/-- processFinalTranscript of the source component: reconcile the candidate
final text against the last processed text, strip leading noise, ignore
results shorter than 2 characters, split into sentences and append the new
blocks.  It does not itself update lastProcessedTranscript; its caller (the
transcript effect) does. -/
def processFinalTranscript (st : DisplayState) (finalText : List Char) : DisplayState :=
  if finalText.isEmpty then st
  else
    let newText := stripLeadNoise (reconcileDelta finalText st.lastProcessedTranscript)
    if newText.isEmpty || newText.length < 2 then st
    else
      let ss := sentencesOf newText
      if ss.isEmpty then st
      else { st with blocks := st.blocks ++ mkBlocks st.nextId ss,
                     nextId := st.nextId + ss.length }

-- ## C5: leading-noise stripping and the 2-character minimum

theorem ws_lead (c : Char) (h : isJsWS c = true) : isLeadNoise c = true := by
  simp [isLeadNoise, h]

theorem stripLeadNoise_decomp (s : List Char) :
    ∃ lead trail, s = lead ++ stripLeadNoise s ++ trail ∧
      (∀ c ∈ lead, isLeadNoise c = true) ∧ ∀ c ∈ trail, isJsWS c = true := by
  obtain ⟨l2, t2, hdec, hl2, ht2⟩ := jsTrim_decomp (s.dropWhile isLeadNoise)
  refine ⟨s.takeWhile isLeadNoise ++ l2, t2, ?_, ?_, ht2⟩
  · have hstrip : stripLeadNoise s = jsTrim (s.dropWhile isLeadNoise) := rfl
    rw [hstrip]
    conv_lhs => rw [← List.takeWhile_append_dropWhile isLeadNoise s, hdec]
    simp [List.append_assoc]
  · intro c hc
    rcases List.mem_append.1 hc with h | h
    · exact List.mem_takeWhile_imp h
    · exact ws_lead c (hl2 c h)

theorem stripLeadNoise_head (s : List Char) :
    ∀ c t, stripLeadNoise s = c :: t → isLeadNoise c = false := by
  intro c t h
  rcases dropWhile_head_not isLeadNoise s with hnil | ⟨c0, t0, hcons, hc0⟩
  · unfold stripLeadNoise at h
    rw [hnil] at h
    simp [jsTrim, dropTrailWS] at h
  · have hws : (s.dropWhile isLeadNoise).dropWhile isJsWS = s.dropWhile isLeadNoise := by
      apply dropWhile_eq_self_of_head
      refine Or.inr ⟨c0, t0, hcons, ?_⟩
      cases hx : isJsWS c0
      · rfl
      · exact absurd (ws_lead c0 hx) (by simp [hc0])
    unfold stripLeadNoise jsTrim at h
    rw [hws] at h
    rcases dropTrailWS_head (s.dropWhile isLeadNoise) with h2 | ⟨c1, t1, t2, hul, hd⟩
    · rw [h2] at h
      cases h
    · rw [hd] at h
      obtain ⟨rfl, rfl⟩ := List.cons.inj h
      rw [hcons] at hul
      obtain ⟨rfl, rfl⟩ := List.cons.inj hul
      exact hc0

/-- C5 (confirmed): the new final delta has its maximal leading run of
punctuation-and-whitespace characters removed (plus trailing whitespace,
which the trim of the source line also removes): the delta decomposes as
that noise run, the stripped delta (whose first character, if any, is not
noise), and trailing whitespace.  If the stripped result has fewer than 2
characters, processFinalTranscript leaves the state unchanged: no segment
is created. -/
theorem stripShortDelta_spec :
    (∀ s : List Char, ∃ lead trail, s = lead ++ stripLeadNoise s ++ trail ∧
        (∀ c ∈ lead, isLeadNoise c = true) ∧ ∀ c ∈ trail, isJsWS c = true) ∧
    (∀ s : List Char, ∀ c t, stripLeadNoise s = c :: t → isLeadNoise c = false) ∧
    (∀ (st : DisplayState) (finalText : List Char),
        (stripLeadNoise (reconcileDelta finalText st.lastProcessedTranscript)).length < 2 →
        processFinalTranscript st finalText = st) := by
  refine ⟨stripLeadNoise_decomp, stripLeadNoise_head, ?_⟩
  intro st finalText h
  unfold processFinalTranscript
  cases hf : finalText.isEmpty
  · simp only [Bool.false_eq_true, if_false]
    rw [if_pos]
    rw [Bool.or_eq_true]
    exact Or.inr (decide_eq_true h)
  · simp

/-- Witness for C5: a one-character candidate produces no segment. -/
theorem stripShortDelta_spec_wit :
    processFinalTranscript initState ("a".data) = initState :=
  stripShortDelta_spec.2.2 initState ("a".data) (by decide)

-- ## C4: the interim marker split

/-- The sentinel substring separating final from interim text. -/
def markerL : List Char := "[INTERIM]".data

/-- First-occurrence split: the part before the first occurrence of sub and
the part after it, or none when sub does not occur.  This is JS split
restricted to the first two parts: for t.split(sub), parts[0] is the first
component and the remainder starts parts[1]. -/
def splitFirst (sub : List Char) : List Char → Option (List Char × List Char)
  | [] => if sub.isPrefixOf [] then some ([], []) else none
  | c :: cs =>
    if sub.isPrefixOf (c :: cs) then some ([], (c :: cs).drop sub.length)
    else
      match splitFirst sub cs with
      | some (b, a) => some (c :: b, a)
      | none => none

/-- Everything up to the first marker occurrence (the whole string when the
marker is absent).  This is parts[1] of the JS split when applied to the
remainder after the first marker, and it is also the source hook's
replace-from-marker-to-end operation (transcripts contain no newline, so
the dot of that regex spans the rest). -/
def upToMarker (t : List Char) : List Char :=
  match splitFirst markerL t with
  | some (b, _) => b
  | none => t

/-- The transcript effect of the source component: reset on empty input;
otherwise split on the interim marker, keep the interim part for display
only, and process the final part when it is nonempty and changed, then
record it as the last processed text. -/
def updateTranscript (st : DisplayState) (transcriptT : List Char) : DisplayState :=
  if transcriptT.isEmpty then
    { st with interimText := [], lastProcessedTranscript := [] }
  else
    match splitFirst markerL transcriptT with
    | some (p0, rest) =>
      let finalText := jsTrim p0
      let currentInterim := jsTrim (upToMarker rest)
      let st1 := { st with interimText := currentInterim }
      if !finalText.isEmpty && !(finalText == st.lastProcessedTranscript) then
        { processFinalTranscript st1 finalText with lastProcessedTranscript := finalText }
      else st1
    | none =>
      let st1 := { st with interimText := [] }
      if !(transcriptT == st.lastProcessedTranscript) then
        { processFinalTranscript st1 transcriptT with lastProcessedTranscript := transcriptT }
      else st1

theorem processFinalTranscript_fields (st : DisplayState) (f : List Char) :
    (processFinalTranscript st f).interimText = st.interimText ∧
    (processFinalTranscript st f).lastProcessedTranscript = st.lastProcessedTranscript ∧
    (processFinalTranscript st f).selectedSentence = st.selectedSentence := by
  unfold processFinalTranscript
  dsimp only
  split
  · exact ⟨rfl, rfl, rfl⟩
  · split
    · exact ⟨rfl, rfl, rfl⟩
    · split
      · exact ⟨rfl, rfl, rfl⟩
      · exact ⟨rfl, rfl, rfl⟩

theorem processFinalTranscript_interim_irrel (st : DisplayState) (x f : List Char) :
    processFinalTranscript { st with interimText := x } f =
      { processFinalTranscript st f with interimText := x } := by
  unfold processFinalTranscript
  dsimp only
  split
  · rfl
  · split
    · rfl
    · split
      · rfl
      · rfl

/-- C4 counterexample: with two marker occurrences, the stored interim text
is only what stands between the first and the second marker, not everything
after the first marker as the claim states. -/
theorem updateTranscript_interim_counterexample :
    (updateTranscript initState ("x[INTERIM]b[INTERIM]c".data)).interimText ≠
      "b[INTERIM]c".data ∧
    (updateTranscript initState ("x[INTERIM]b[INTERIM]c".data)).interimText =
      "b".data := by decide

/-- C4 (amended): on a nonempty raw transcript containing the marker, the
interim text is the trimmed part between the first and the second marker
occurrence (to the end when there is only one), and the part before the
first marker, trimmed, is the candidate final text; with no marker the
interim text is empty and the whole string is the candidate final text.
Interim text is only displayed: the resulting segments (and the recorded
last processed text) depend only on the part before the first marker,
never on the interim remainder. -/
theorem updateTranscript_spec :
    (∀ (st : DisplayState) (t p0 rest : List Char), t.isEmpty = false →
        splitFirst markerL t = some (p0, rest) →
        (updateTranscript st t).interimText = jsTrim (upToMarker rest)) ∧
    (∀ (st : DisplayState) (t : List Char), t.isEmpty = false →
        splitFirst markerL t = none →
        (updateTranscript st t).interimText = [] ∧
        (updateTranscript st t).blocks =
          (if t == st.lastProcessedTranscript then st.blocks
           else (processFinalTranscript st t).blocks)) ∧
    (∀ (st : DisplayState) (t t2 p0 rest rest2 : List Char),
        t.isEmpty = false → t2.isEmpty = false →
        splitFirst markerL t = some (p0, rest) →
        splitFirst markerL t2 = some (p0, rest2) →
        (updateTranscript st t).blocks = (updateTranscript st t2).blocks ∧
        (updateTranscript st t).lastProcessedTranscript =
          (updateTranscript st t2).lastProcessedTranscript) := by
  refine ⟨?_, ?_, ?_⟩
  · intro st t p0 rest ht hsp
    simp only [updateTranscript, ht, Bool.false_eq_true, if_false, hsp]
    split
    · simp [processFinalTranscript_interim_irrel]
    · rfl
  · intro st t ht hsp
    simp only [updateTranscript, ht, Bool.false_eq_true, if_false, hsp]
    cases hbeq : (t == st.lastProcessedTranscript) with
    | true =>
      simp [hbeq]
    | false =>
      simp [hbeq, processFinalTranscript_interim_irrel]
  · intro st t t2 p0 rest rest2 ht ht2 hsp hsp2
    simp only [updateTranscript, ht, ht2, Bool.false_eq_true, if_false, hsp, hsp2]
    split
    · simp [processFinalTranscript_interim_irrel]
    · exact ⟨rfl, rfl⟩

/-- Witness for C4: one marker occurrence on a concrete transcript. -/
theorem updateTranscript_spec_wit :
    (updateTranscript initState ("a[INTERIM]b".data)).interimText =
      jsTrim (upToMarker ("b".data)) :=
  updateTranscript_spec.1 initState ("a[INTERIM]b".data) ("a".data) ("b".data)
    (by decide) (by decide)

-- ## The enrichment dispatcher operations

/-- JS String.prototype.includes as a substring test. -/
def containsSub (hay sub : List Char) : Bool :=
  hay.tails.any (fun t => sub.isPrefixOf t)

def unavailMarkL : List Char := "[TRADUÇÃO INDISPONÍVEL]".data

def apiNotConfigL : List Char := "API não configurada".data

/-- The translation value stored on success: the backend sentinel for a
missing API key is replaced by a fixed message, otherwise the translated
text is stored as is. -/
def mergedTranslation (translated : List Char) : List Char :=
  if !translated.isEmpty && containsSub translated unavailMarkL then apiNotConfigL
  else translated

/-- onSuccess of translateSentence: update every block whose originalText
equals the dispatched text. -/
def applyTranslationSuccess (st : DisplayState) (text translated : List Char) : DisplayState :=
  { st with blocks := st.blocks.map (fun b =>
      if b.originalText == text then
        { b with translatedText := some (mergedTranslation translated),
                 isTranslating := false }
      else b) }

/-- onError of translateSentence. -/
def applyTranslationError (st : DisplayState) (text : List Char) : DisplayState :=
  { st with blocks := st.blocks.map (fun b =>
      if b.originalText == text then
        { b with translatedText := some ("Erro na tradução".data),
                 isTranslating := false }
      else b) }

/-- onSuccess of the analysis hook: update every block whose originalText
equals the currently selected sentence (when one is selected). -/
def applyAnalysisSuccess (st : DisplayState) (answer : List Char) : DisplayState :=
  if st.selectedSentence.isEmpty then st
  else { st with blocks := st.blocks.map (fun b =>
      if b.originalText == st.selectedSentence then
        { b with aiResponse := some answer, isAnalyzing := false }
      else b) }

/-- onError of the analysis hook. -/
def applyAnalysisError (st : DisplayState) : DisplayState :=
  if st.selectedSentence.isEmpty then st
  else { st with blocks := st.blocks.map (fun b =>
      if b.originalText == st.selectedSentence then
        { b with aiResponse := some ("Erro ao processar análise".data),
                 isAnalyzing := false }
      else b) }

/-- A network enrichment call emitted by a handler. -/
inductive EnrichCall where
  | translateCall (text targetLanguage : List Char)
  | analyzeCall (transcription question : List Char)
deriving DecidableEq

def interrogativeStarts : List (List Char) :=
  ["que".data, "what".data, "who".data, "where".data, "when".data, "why".data,
   "how".data, "como".data, "onde".data, "quando".data, "por que".data,
   "porque".data, "qual".data, "quem".data]

def lowerL (s : List Char) : List Char := s.map Char.toLower

/-- The question test of handleSentenceClick: a question mark anywhere, or
a leading interrogative word (case-insensitive) in the trimmed sentence. -/
def isQuestionText (s : List Char) : Bool :=
  s.any (fun c => c = '?' || c = '¿') ||
  interrogativeStarts.any (fun w => w.isPrefixOf (lowerL (jsTrim s)))

def promptFor (sentence : List Char) : List Char :=
  (if isQuestionText sentence then
    "Responda esta pergunta baseada no contexto da transcrição: ".data
   else
    "Explique ou descreva o que está sendo dito nesta frase: ".data) ++
  '\"' :: (sentence ++ ['\"'])

/-- handleSentenceClick: select the sentence, mark every block with that
text as analyzing, and dispatch the analysis call.  There is no guard: the
call is emitted unconditionally, also when a block is already pending. -/
def handleSentenceClick (st : DisplayState) (sentence transcriptCtx : List Char) :
    DisplayState × List EnrichCall :=
  ({ st with
      selectedSentence := sentence,
      blocks := st.blocks.map (fun b =>
        if b.originalText == sentence then { b with isAnalyzing := true } else b) },
   [EnrichCall.analyzeCall transcriptCtx (promptFor sentence)])

/-- JS truthiness of an optional string field: an absent value and an
empty string are both falsy. -/
def strTruthy (o : Option (List Char)) : Bool :=
  match o with
  | none => false
  | some s => !s.isEmpty

/-- handleTranslationClick: no-op when auto translation is off or the block
id is unknown; toggle visibility when the block's translatedText is truthy
(a stored empty-string translation is falsy and falls through to a fresh
dispatch); otherwise dispatch unless the block is already translating.  The
resolved target language (the source reads localStorage to pick it) is
passed in. -/
def handleTranslationClick (st : DisplayState) (blockId : Nat)
    (autoTranslationEnabled : Bool) (targetLang : List Char) :
    DisplayState × List EnrichCall :=
  if !autoTranslationEnabled then (st, [])
  else
    match st.blocks.find? (fun b => b.id == blockId) with
    | none => (st, [])
    | some block =>
      if strTruthy block.translatedText then
        ({ st with blocks := st.blocks.map (fun b =>
            if b.id == blockId then { b with showTranslation := !b.showTranslation }
            else b) },
         [])
      else if !block.isTranslating then
        ({ st with blocks := st.blocks.map (fun b =>
            if b.id == blockId then { b with isTranslating := true } else b) },
         [EnrichCall.translateCall block.originalText targetLang])
      else (st, [])

-- ## C6: merging results back into the store

def dupState : DisplayState :=
  { blocks := [mkBlock 0 ("hi".data), mkBlock 1 ("hi".data)],
    lastProcessedTranscript := [], interimText := [], selectedSentence := [],
    nextId := 2 }

/-- C6 counterexample: merging is keyed by text, not by segment id.  In a
store with two distinct segments carrying identical text, a single
translation completion for that text lands on both segments, not on
exactly the one that was dispatched. -/
theorem mergeByText_counterexample :
    (mkBlock 1 ("hi".data)).translatedText = none ∧
    ((applyTranslationSuccess dupState ("hi".data) ("oi".data)).blocks.map
      (fun b => b.translatedText)) =
      [some ("oi".data), some ("oi".data)] := by decide

/-- C6 (amended): enrichment completions are merged into the store keyed by
the segment's original text, not by id: position by position, exactly the
blocks whose originalText equals the dispatched text (for translations) or
the selected sentence (for analysis results) are updated, and all other
blocks are unchanged.  The result therefore lands on exactly the dispatched
segment only when no other segment carries identical text. -/
theorem mergeByText_spec :
    (∀ (st : DisplayState) (text tr : List Char) (j : Nat) (bj : SentenceBlock),
        st.blocks[j]? = some bj →
        (applyTranslationSuccess st text tr).blocks[j]? = some (
          if bj.originalText == text then
            { bj with translatedText := some (mergedTranslation tr),
                      isTranslating := false }
          else bj)) ∧
    (∀ (st : DisplayState) (answer : List Char) (j : Nat) (bj : SentenceBlock),
        st.selectedSentence.isEmpty = false →
        st.blocks[j]? = some bj →
        (applyAnalysisSuccess st answer).blocks[j]? = some (
          if bj.originalText == st.selectedSentence then
            { bj with aiResponse := some answer, isAnalyzing := false }
          else bj)) := by
  constructor
  · intro st text tr j bj hj
    simp [applyTranslationSuccess, List.getElem?_map, hj]
  · intro st answer j bj hsel hj
    simp [applyAnalysisSuccess, hsel, List.getElem?_map, hj]

/-- Witness for C6: the merge lands on position 1 of the duplicate store. -/
theorem mergeByText_spec_wit :
    (applyTranslationSuccess dupState ("hi".data) ("oi".data)).blocks[1]? = some (
      if (mkBlock 1 ("hi".data)).originalText == ("hi".data) then
        { mkBlock 1 ("hi".data) with
            translatedText := some (mergedTranslation ("oi".data)),
            isTranslating := false }
      else mkBlock 1 ("hi".data)) :=
  mergeByText_spec.1 dupState ("hi".data) ("oi".data) 1 (mkBlock 1 ("hi".data))
    (by decide)

-- ## C7: the in-flight guard

def pendingState : DisplayState :=
  { blocks := [{ mkBlock 0 ("oi".data) with isAnalyzing := true }],
    lastProcessedTranscript := [], interimText := [],
    selectedSentence := "oi".data, nextId := 1 }

/-- C7 counterexample: the analysis path has no pending guard.  In a state
whose only block is already analyzing (pending), handleSentenceClick for
that same sentence still emits an analysis call: a second dispatch of the
same kind occurs while the first is in flight, and the code has no force
parameter that this dispatch could be attributed to. -/
theorem analysisGuard_counterexample :
    ({ mkBlock 0 ("oi".data) with isAnalyzing := true }).isAnalyzing = true ∧
    (handleSentenceClick pendingState ("oi".data) ("ctx".data)).2 ≠ [] := by decide

/-- C7 (amended): the at-most-one-in-flight guard exists only for
translation: when the block found for the clicked id is already
translating, and likewise when its stored translation is truthy (a
nonempty string), handleTranslationClick dispatches nothing.  The
truthiness is JS truthiness: a block holding an empty-string translation
is not treated as translated, and is dispatched again when not pending.
The analysis path is unguarded: handleSentenceClick always emits exactly
one analysis call, whatever the pending state of the clicked segment. -/
theorem dispatchGuard_spec :
    (∀ (st : DisplayState) (blockId : Nat) (auto : Bool) (lang : List Char)
        (b : SentenceBlock),
        st.blocks.find? (fun x => x.id == blockId) = some b →
        b.isTranslating = true →
        (handleTranslationClick st blockId auto lang).2 = []) ∧
    (∀ (st : DisplayState) (blockId : Nat) (auto : Bool) (lang : List Char)
        (b : SentenceBlock),
        st.blocks.find? (fun x => x.id == blockId) = some b →
        strTruthy b.translatedText = true →
        (handleTranslationClick st blockId auto lang).2 = []) ∧
    (∀ (st : DisplayState) (blockId : Nat) (lang : List Char)
        (b : SentenceBlock),
        st.blocks.find? (fun x => x.id == blockId) = some b →
        b.translatedText = some [] →
        b.isTranslating = false →
        (handleTranslationClick st blockId true lang).2 =
          [EnrichCall.translateCall b.originalText lang]) ∧
    (∀ (st : DisplayState) (sentence ctx : List Char),
        (handleSentenceClick st sentence ctx).2 =
          [EnrichCall.analyzeCall ctx (promptFor sentence)]) := by
  refine ⟨?_, ?_, ?_, ?_⟩
  · intro st blockId auto lang b hfind hb
    cases auto
    · simp [handleTranslationClick]
    · simp only [handleTranslationClick, Bool.not_true, Bool.false_eq_true, if_false, hfind]
      cases hts : strTruthy b.translatedText
      · simp [hts, hb]
      · simp [hts]
  · intro st blockId auto lang b hfind hb
    cases auto
    · simp [handleTranslationClick]
    · simp only [handleTranslationClick, Bool.not_true, Bool.false_eq_true, if_false, hfind]
      simp [hb]
  · intro st blockId lang b hfind hte hit
    simp only [handleTranslationClick, Bool.not_true, Bool.false_eq_true, if_false, hfind]
    simp [strTruthy, hte, hit]
  · intro st sentence ctx
    rfl

/-- Witness for C7: a pending translation block is not re-dispatched. -/
theorem dispatchGuard_spec_wit :
    (handleTranslationClick
      { blocks := [{ mkBlock 0 ("hi".data) with isTranslating := true }],
        lastProcessedTranscript := [], interimText := [], selectedSentence := [],
        nextId := 1 } 0 true ("en-US".data)).2 = [] :=
  dispatchGuard_spec.1
    { blocks := [{ mkBlock 0 ("hi".data) with isTranslating := true }],
      lastProcessedTranscript := [], interimText := [], selectedSentence := [],
      nextId := 1 } 0 true ("en-US".data)
    { mkBlock 0 ("hi".data) with isTranslating := true } (by decide) (by decide)

-- ## C8: segment text immutability

def blockKey (b : SentenceBlock) : Nat × List Char := (b.id, b.originalText)

theorem map_blockKey_of_point (l : List SentenceBlock) (f : SentenceBlock → SentenceBlock)
    (h : ∀ b, blockKey (f b) = blockKey b) :
    (l.map f).map blockKey = l.map blockKey := by
  rw [List.map_map]
  exact List.map_congr_left (fun b _ => h b)

/-- C8 (confirmed): no dispatcher operation (marking pending, merging
translation or analysis results, recording errors, toggling visibility)
ever changes a block's id or originalText: the list of (id, originalText)
pairs of the store is invariant under every one of them, so a segment's
text is never altered after creation. -/
theorem segment_text_immutable :
    ∀ (st : DisplayState) (text tr answer lang sentence ctx : List Char)
      (blockId : Nat) (auto : Bool),
      (applyTranslationSuccess st text tr).blocks.map blockKey =
          st.blocks.map blockKey ∧
      (applyTranslationError st text).blocks.map blockKey =
          st.blocks.map blockKey ∧
      (applyAnalysisSuccess st answer).blocks.map blockKey =
          st.blocks.map blockKey ∧
      (applyAnalysisError st).blocks.map blockKey = st.blocks.map blockKey ∧
      ((handleSentenceClick st sentence ctx).1).blocks.map blockKey =
          st.blocks.map blockKey ∧
      ((handleTranslationClick st blockId auto lang).1).blocks.map blockKey =
          st.blocks.map blockKey := by
  intro st text tr answer lang sentence ctx blockId auto
  refine ⟨?_, ?_, ?_, ?_, ?_, ?_⟩
  · refine map_blockKey_of_point _ _ (fun b => ?_)
    by_cases h : (b.originalText == text) <;> simp [blockKey, h]
  · refine map_blockKey_of_point _ _ (fun b => ?_)
    by_cases h : (b.originalText == text) <;> simp [blockKey, h]
  · unfold applyAnalysisSuccess
    split
    · rfl
    · refine map_blockKey_of_point _ _ (fun b => ?_)
      by_cases h : (b.originalText == st.selectedSentence) <;> simp [blockKey, h]
  · unfold applyAnalysisError
    split
    · rfl
    · refine map_blockKey_of_point _ _ (fun b => ?_)
      by_cases h : (b.originalText == st.selectedSentence) <;> simp [blockKey, h]
  · refine map_blockKey_of_point _ _ (fun b => ?_)
    by_cases h : (b.originalText == sentence) <;> simp [blockKey, h]
  · unfold handleTranslationClick
    cases auto
    · simp
    · simp only [Bool.not_true, Bool.false_eq_true, if_false]
      cases hf : st.blocks.find? (fun x => x.id == blockId) with
      | none => rfl
      | some b =>
        cases hts : strTruthy b.translatedText
        · simp only [hts, Bool.false_eq_true, if_false]
          cases hit : b.isTranslating
          · simp only [hit, Bool.not_false, if_true]
            refine map_blockKey_of_point _ _ (fun x => ?_)
            by_cases h : (x.id == blockId) <;> simp [blockKey, h]
          · simp [hit]
        · simp only [hts, if_true]
          refine map_blockKey_of_point _ _ (fun x => ?_)
          by_cases h : (x.id == blockId) <;> simp [blockKey, h]

-- ## C9: the automatic dispatch guard of the recognition hook

/-- Word count of the hook: length of text.split(backslash-s-plus). -/
def wordCount (t : List Char) : Nat := (splitRunsOn isJsWS t).length

/-- Significance test of the hook: at least 25 characters, or at least 2
words together with a strong punctuation character somewhere. -/
def isSignificantText (t : List Char) : Bool :=
  t.length ≥ 25 || (wordCount t ≥ 2 && t.any isStrongPunct)

/-- The guard of the automatic language-detection dispatch: significant
text, different from the last dispatched text, and more than 2000 ms since
the last dispatch. -/
def shouldDispatch (text lastText : List Char) (lastAtMs nowMs : Int) : Bool :=
  isSignificantText text && !(text == lastText) && (nowMs - lastAtMs > 2000)

/-- The two refs backing the guard: last dispatched text and its time. -/
structure GuardState where
  lastProcessedText : List Char
  lastDetectionAtMs : Int
deriving DecidableEq

/-- One automatic dispatch attempt: on success both refs are updated and a
network call is made (the returned flag); otherwise nothing changes. -/
def autoDetectStep (g : GuardState) (text : List Char) (nowMs : Int) :
    GuardState × Bool :=
  if shouldDispatch text g.lastProcessedText g.lastDetectionAtMs nowMs then
    ({ lastProcessedText := text, lastDetectionAtMs := nowMs }, true)
  else (g, false)

/-- C9 (confirmed): an automatic dispatch attempt is rejected when the text
equals the last dispatched text, rejected when less than the fixed 2000 ms
cooldown has elapsed, and rejected unless the text is significant, which
means at least 25 characters or at least 2 words with terminal punctuation;
consequently, once an attempt dispatches, a second attempt with the same
text never dispatches again (at any later time, in particular inside the
cooldown window), so two identical automatic attempts produce exactly one
network call. -/
theorem shouldDispatch_spec :
    (∀ (text : List Char) (lastAt now : Int),
        shouldDispatch text text lastAt now = false) ∧
    (∀ (text lastText : List Char) (lastAt now : Int), now - lastAt < 2000 →
        shouldDispatch text lastText lastAt now = false) ∧
    (∀ (text lastText : List Char) (lastAt now : Int),
        isSignificantText text = false →
        shouldDispatch text lastText lastAt now = false) ∧
    (∀ text : List Char,
        isSignificantText text = true ↔
          (25 ≤ text.length ∨ (2 ≤ wordCount text ∧ text.any isStrongPunct = true))) ∧
    (∀ (g : GuardState) (text : List Char) (now now2 : Int),
        (autoDetectStep g text now).2 = true →
        (autoDetectStep (autoDetectStep g text now).1 text now2).2 = false) := by
  refine ⟨?_, ?_, ?_, ?_, ?_⟩
  · intro text lastAt now
    simp [shouldDispatch]
  · intro text lastText lastAt now h
    unfold shouldDispatch
    have h2 : ¬ (2000 < now - lastAt) := by omega
    simp [h2]
  · intro text lastText lastAt now h
    simp [shouldDispatch, h]
  · intro text
    simp [isSignificantText]
  · intro g text now now2 h
    cases hsd : shouldDispatch text g.lastProcessedText g.lastDetectionAtMs now with
    | false =>
      rw [autoDetectStep] at h
      simp [hsd] at h
    | true =>
      have h1 : (autoDetectStep g text now).1 =
          { lastProcessedText := text, lastDetectionAtMs := now } := by
        simp [autoDetectStep, hsd]
      rw [h1]
      simp [autoDetectStep, shouldDispatch]

/-- Witness for C9: a concrete first dispatch, then the identical second
attempt is rejected. -/
theorem shouldDispatch_spec_wit :
    (autoDetectStep
      (autoDetectStep ⟨[], -3000⟩ ("abcdefghijklmnopqrstuvwxyz".data) 0).1
      ("abcdefghijklmnopqrstuvwxyz".data) 1).2 = false :=
  shouldDispatch_spec.2.2.2.2 ⟨[], -3000⟩ ("abcdefghijklmnopqrstuvwxyz".data) 0 1
    (by decide)

-- ## C10: the recognition hook's duplicate-chunk filter

/-- JS String.prototype.split on a single character: every occurrence
separates fragments, consecutive occurrences produce empty fragments. -/
def splitChar (p : Char → Bool) : List Char → List (List Char)
  | [] => [[]]
  | c :: cs =>
    if p c then [] :: splitChar p cs
    else
      match splitChar p cs with
      | [] => [[c]]
      | h :: t => (c :: h) :: t

/-- JS array slice(-3): the last three elements (all of them when fewer). -/
def lastSlice3 (ws : List (List Char)) : List (List Char) :=
  ws.drop (ws.length - 3)

/-- The hook's lastWords key: split the accumulated transcript on spaces,
take the last three words, join with spaces, lowercase. -/
def lastWordsKey (t : List Char) : List Char :=
  lowerL (List.intercalate [' '] (lastSlice3 (splitChar (fun c => c == ' ') t)))

/-- The hook's newWords key: the first three words of the chunk, joined and
lowercased. -/
def firstWordsKey (t : List Char) : List Char :=
  lowerL (List.intercalate [' '] ((splitChar (fun c => c == ' ') t).take 3))

/-- The append decision of recognition.onresult for a trimmed finalized
chunk against the accumulated transcript (already cleaned of its interim
tail, which is upToMarker of the previous value): append with a space
separator only when the chunk is not already a substring and the word keys
differ; otherwise keep the accumulated transcript unchanged. -/
def appendFinalChunk (cleanPrevT chunk : List Char) : List Char :=
  if !(containsSub cleanPrevT chunk) &&
      !(lastWordsKey cleanPrevT == firstWordsKey chunk) then
    cleanPrevT ++ (if cleanPrevT.isEmpty then [] else [' ']) ++ chunk
  else cleanPrevT

/-- C10 (confirmed): a finalized chunk is appended to the accumulated
transcript only if it is not already contained as a substring and its first
three words differ case-insensitively from the accumulated transcript's
last three words; in either failing case the accumulated transcript is
returned unchanged, so the chunk is silently discarded and a genuinely
repeated (nonempty) sentence is lost: the result provably differs from
what appending would have produced. -/
theorem appendFinalChunk_spec :
    (∀ p c : List Char, containsSub p c = true → appendFinalChunk p c = p) ∧
    (∀ p c : List Char, lastWordsKey p = firstWordsKey c →
        appendFinalChunk p c = p) ∧
    (∀ p c : List Char, containsSub p c = false →
        lastWordsKey p ≠ firstWordsKey c →
        appendFinalChunk p c = p ++ (if p.isEmpty then [] else [' ']) ++ c) ∧
    (∀ p c : List Char, c.isEmpty = false →
        appendFinalChunk p c = p →
        appendFinalChunk p c ≠ p ++ (if p.isEmpty then [] else [' ']) ++ c) := by
  refine ⟨?_, ?_, ?_, ?_⟩
  · intro p c h
    simp [appendFinalChunk, h]
  · intro p c h
    simp [appendFinalChunk, h]
  · intro p c h1 h2
    simp [appendFinalChunk, h1, h2]
  · intro p c hc hp heq
    rw [hp] at heq
    have h0 : p ++ ([] : List Char) =
        p ++ ((if p.isEmpty then ([] : List Char) else [' ']) ++ c) := by
      simpa [List.append_assoc] using heq
    have hx := (List.append_cancel_left h0).symm
    rcases List.append_eq_nil.1 hx with ⟨-, hc0⟩
    rw [hc0] at hc
    simp at hc

/-- Witness for C10: an exactly repeated sentence is discarded. -/
theorem appendFinalChunk_spec_wit :
    appendFinalChunk ("hi there.".data) ("hi there.".data) = "hi there.".data :=
  appendFinalChunk_spec.1 ("hi there.".data) ("hi there.".data) (by decide)
